import Mathlib

/-!
Verification of the session/thread synchronization core of the
opendiscord bridge (src/unnamed/part_000), shallowly embedded in Lean.

JavaScript `Map` objects are embedded as association lists with the usual
get/set/delete observational semantics; `Set` objects as lists with
deduplicating insert.  Strings keep Lean's `String`; where individual
characters matter (message splitting) we work on `List Char`.
-/

set_option maxHeartbeats 1000000

namespace OpenDiscord

/-- JS `Map.get`: the value bound to `k`, if any. -/
def mapGet {α : Type} : List (String × α) → String → Option α
  | [], _ => none
  | p :: rest, k => if p.1 = k then some p.2 else mapGet rest k

/-- JS `Map.delete`: drop every binding of `k`. -/
def mapErase {α : Type} : List (String × α) → String → List (String × α)
  | [], _ => []
  | p :: rest, k => if p.1 = k then mapErase rest k else p :: mapErase rest k

/-- JS `Map.set`: rebind `k` to `v` (insertion order is irrelevant to
every lookup performed by the code under study). -/
def mapSet {α : Type} (m : List (String × α)) (k : String) (v : α) :
    List (String × α) :=
  (k, v) :: mapErase m k

/-- JS `Set.add`. -/
def setInsert (s : List String) (k : String) : List String :=
  if k ∈ s then s else k :: s

/-- JS `Set.delete`. -/
def setErase : List String → String → List String
  | [], _ => []
  | x :: rest, k => if x = k then setErase rest k else x :: setErase rest k

/-! ## Data model -/

/-- Message role, read by the code from `msg.role` (falling back to
`msg.info.role`); any value other than the two recognized strings is
`other`. -/
inductive Role : Type
  | user
  | assistant
  | other
deriving DecidableEq, Repr

/-- One typed content part of a backend message: `{type:'text', text}` parts
carry text, every other `type` (e.g. `file`) is opaque to the extractor. -/
inductive Part : Type
  | text (s : String)
  | nonText
deriving DecidableEq, Repr

/-- A backend conversation message: a role plus ordered content parts. -/
structure Message : Type where
  role : Role
  parts : List Part
deriving DecidableEq, Repr

/-- A Deduplication Ledger entry: the last `{userContent, assistantContent}`
recorded for a session (`lastPostedContent` values). -/
structure LedgerEntry : Type where
  userContent : String
  assistantContent : String
deriving DecidableEq, Repr

/-- The process-wide mutable sync state of part_000:
`sessionToThread`, `threadToSession`, `lastPostedContent`,
`discordInitiatedSessions`, `subscribedThreads` (lines 65-87). -/
structure SyncState : Type where
  sessionToThread : List (String × String)
  threadToSession : List (String × String)
  lastPostedContent : List (String × LedgerEntry)
  discordInitiatedSessions : List String
  subscribedThreads : List String
deriving DecidableEq, Repr

/-! ## Exchange Extractor (part_000 lines 611-654) -/

/-- JS whitespace as far as `String.prototype.trim` is concerned, restricted
to the ASCII whitespace characters that can occur here. -/
def isJsSpace (c : Char) : Bool :=
  c == ' ' || c == '\t' || c == '\n' || c == '\r' || c == '\x0b' || c == '\x0c'

/-- JS `String.prototype.trim` on a character list. -/
def jsTrim (s : List Char) : List Char :=
  ((s.dropWhile isJsSpace).reverse.dropWhile isJsSpace).reverse

/-- Embeds `extractMessageContent` (lines 611-624): concatenate the `text` of all
`text`-typed parts in order, then trim. -/
def extractMessageContent (m : Message) : String :=
  String.mk (jsTrim (String.join (m.parts.filterMap fun p =>
    match p with
    | Part.text s => some s
    | Part.nonText => none)).data)

/-- The backward scan of `getLatestExchange` (lines 633-644), expressed on
the reversed message list.  The accumulator holds the most recent
assistant message once found (`lastAssistantIdx`); a user message seen
after that point completes the exchange (`lastUserIdx` + `break`). -/
def getLatestExchangeAux : List Message → Option Message → Option (Message × Message)
  | [], _ => none
  | m :: rest, none =>
    if m.role = Role.assistant then getLatestExchangeAux rest (some m)
    else getLatestExchangeAux rest none
  | m :: rest, some a =>
    if m.role = Role.user then some (m, a)
    else getLatestExchangeAux rest (some a)

/-- Embeds `getLatestExchange` (lines 629-654): the latest (user, assistant) pair,
or `none` when either index stays `-1`. -/
def getLatestExchange (messages : List Message) : Option (Message × Message) :=
  getLatestExchangeAux messages.reverse none

/-! ## Session↔Thread Registry operations -/

/-- The registry insertion performed by `createSyncThread` once the chat
thread exists (lines 508-512): store both directions of the mapping and
subscribe to the new thread.  `threadId` is the id of the freshly created
thread. -/
def createSyncThreadBind (s : SyncState) (sessionId threadId : String) :
    SyncState :=
  { s with
    sessionToThread := mapSet s.sessionToThread sessionId threadId
    threadToSession := mapSet s.threadToSession threadId sessionId
    subscribedThreads := setInsert s.subscribedThreads threadId }

/-- The guarded bind of the `POST /sync/session` handler
(lines 1816-1829): if the session already has a thread, answer with it and
change nothing; otherwise create a thread (modelled by the id the chat
platform would assign) and store the mappings.  Returns the new state and
the threadId reported to the caller. -/
def syncSessionBind (s : SyncState) (sessionId threadId : String) :
    SyncState × String :=
  match mapGet s.sessionToThread sessionId with
  | some existingThreadId => (s, existingThreadId)
  | none => (createSyncThreadBind s sessionId threadId, threadId)

/-- Iterated guarded binds for one session with varying threadId
arguments. -/
def syncSessionBindMany (s : SyncState) (sessionId : String) :
    List String → SyncState
  | [] => s
  | t :: ts => syncSessionBindMany (syncSessionBind s sessionId t).1 sessionId ts

/-! ## Deduplication Ledger -/

/-- The inline dedup check of `handleSessionIdle` (lines 715-722): posting
is suppressed exactly when a `lastPostedContent` entry exists whose two
fields both equal the candidate text. -/
def shouldPost (s : SyncState) (sessionId userText assistantText : String) :
    Bool :=
  match mapGet s.lastPostedContent sessionId with
  | some lastPosted =>
    !(lastPosted.userContent == userText &&
      lastPosted.assistantContent == assistantText)
  | none => true

/-- The ledger upsert of `handleSessionIdle` line 744:
`lastPostedContent.set(sessionId, { userContent, assistantContent })`. -/
def record (s : SyncState) (sessionId userText assistantText : String) :
    SyncState :=
  { s with
    lastPostedContent :=
      mapSet s.lastPostedContent sessionId ⟨userText, assistantText⟩ }

/-! ## Event Stream Consumer and Thread Lifecycle (part_000 lines 659-806) -/

/-- The awaited I/O actions a mirror attempt performs, in order:
the `opencode.session.messages` fetch, `createSyncThread`, and
`postToSyncThread` (whose boolean result the caller ignores). -/
inductive Effect : Type
  | fetchMessages (sessionId : String)
  | createThread (sessionId : String) (title : String)
  | post (threadId : String) (userContent : String)
      (assistantContent : String) (ok : Bool)
deriving DecidableEq, Repr

/-- Whether an effect is a `postToSyncThread` attempt. -/
def Effect.isPost : Effect → Bool
  | Effect.post _ _ _ _ => true
  | _ => false

/-- Embeds `handleSessionIdle` (lines 659-749), with the awaited I/O surfaced as
parameters: `fetchResult` is what `opencode.session.messages` yields
(`none` when the call throws, landing in the catch of line 746),
`createResult` is the thread produced by `createSyncThread` (`none` when
creation fails and the handler returns at line 733), and `postOk` is the
boolean result of `postToSyncThread`, which the code never reads.  Returns
the updated state and the effects attempted, in order. -/
def handleSessionIdle (s : SyncState) (sessionId : String)
    (fetchResult : Option (List Message)) (createResult : Option String)
    (postOk : Bool) : SyncState × List Effect :=
  if sessionId ∈ s.discordInitiatedSessions then (s, [])
  else
    match fetchResult with
    | none => (s, [Effect.fetchMessages sessionId])
    | some messages =>
      if messages.length = 0 then (s, [Effect.fetchMessages sessionId])
      else
        match getLatestExchange messages with
        | none => (s, [Effect.fetchMessages sessionId])
        | some exchange =>
          let userContent := extractMessageContent exchange.1
          let assistantContent := extractMessageContent exchange.2
          if userContent = "" ∧ assistantContent = "" then
            (s, [Effect.fetchMessages sessionId])
          else if shouldPost s sessionId userContent assistantContent = false
          then (s, [Effect.fetchMessages sessionId])
          else
            match mapGet s.sessionToThread sessionId with
            | some threadId =>
              (record s sessionId userContent assistantContent,
               [Effect.fetchMessages sessionId,
                Effect.post threadId userContent assistantContent postOk])
            | none =>
              let threadName :=
                if userContent = "" then "OpenCode Session"
                else userContent.take 50
              match createResult with
              | none =>
                (s, [Effect.fetchMessages sessionId,
                     Effect.createThread sessionId threadName])
              | some threadId =>
                (record (createSyncThreadBind s sessionId threadId)
                   sessionId userContent assistantContent,
                 [Effect.fetchMessages sessionId,
                  Effect.createThread sessionId threadName,
                  Effect.post threadId userContent assistantContent postOk])

/-- The `session.deleted` cleanup (lines 790-793): forward mapping, ledger
entry and provenance membership go; `threadToSession` is deliberately kept
(comment on line 793). -/
def handleSessionDeleted (s : SyncState) (sessionId : String) : SyncState :=
  { s with
    sessionToThread := mapErase s.sessionToThread sessionId
    lastPostedContent := mapErase s.lastPostedContent sessionId
    discordInitiatedSessions := setErase s.discordInitiatedSessions sessionId }

/-- An event envelope as classified by the consumer loop: `session.status`
carries optional `sessionID`/`status.type` fields, `session.deleted` an
optional `sessionId`; every other `type` is ignored here. -/
inductive Event : Type
  | sessionStatus (sessionID : Option String) (statusType : Option String)
  | sessionDeleted (sessionId : Option String)
  | otherEvent (eventType : String)
deriving DecidableEq, Repr

/-- A task the loop defers with `setTimeout`: the idle handler, scheduled
with a 100 ms delay (line 782). -/
inductive Scheduled : Type
  | idleHandler (sessionId : String) (delayMs : Nat)
deriving DecidableEq, Repr

/-- The per-event body of the consumer loop (lines 763-799). -/
def processEvent (s : SyncState) : Event → SyncState × List Scheduled
  | Event.sessionStatus (some sessionId) (some statusType) =>
    if statusType = "idle" then (s, [Scheduled.idleHandler sessionId 100])
    else (s, [])
  | Event.sessionStatus _ _ => (s, [])
  | Event.sessionDeleted (some sessionId) => (handleSessionDeleted s sessionId, [])
  | Event.sessionDeleted none => (s, [])
  | Event.otherEvent _ => (s, [])

/-- How the event-feed iteration terminated. -/
inductive FeedTermination : Type
  | ended
  | threw
deriving DecidableEq, Repr

/-- What `startGlobalEventSubscription` does once the feed is over. -/
inductive RetryAction : Type
  | stop
  | retryAfter (delayMs : Nat)
deriving DecidableEq, Repr

/-- Tail behavior of `startGlobalEventSubscription` (lines 754-806): only
when the subscription call or the iteration throws does the catch block run
`setTimeout(startGlobalEventSubscription, 10000)`; when the event sequence
ends normally the `for await` loop exits and the function returns with
nothing scheduled. -/
def subscriptionRetry : FeedTermination → RetryAction
  | FeedTermination.ended => RetryAction.stop
  | FeedTermination.threw => RetryAction.retryAfter 10000

/-- One run of the consumer: fold the delivered events through
`processEvent`, then apply the termination behavior. -/
def runSubscription (s : SyncState) (events : List Event)
    (term : FeedTermination) : SyncState × List Scheduled × RetryAction :=
  let folded := events.foldl
    (fun acc e =>
      let step := processEvent acc.1 e
      (step.1, acc.2 ++ step.2)) (s, ([] : List Scheduled))
  (folded.1, folded.2, subscriptionRetry term)

/-! ## Message splitter (part_000 lines 809-837) -/

/-- JS `String.prototype.lastIndexOf(c, pos)` for a single character: the
largest index `i ≤ pos` with `s[i] = c`, searching downward from `pos`;
`none` plays the role of `-1`. -/
def lastIndexOfLe (s : List Char) (c : Char) : Nat → Option Nat
  | 0 => if s[0]? = some c then some 0 else none
  | pos + 1 =>
    if s[pos + 1]? = some c then some (pos + 1) else lastIndexOfLe s c pos

/-- The split-point selection of lines 822-830: try the latest newline at
or before `maxLength`, reject it when below `maxLength / 2`, then the
latest space under the same rule, then force a cut at `maxLength`.  JS
compares against the real number `maxLength / 2`, so `i < maxLength / 2`
is rendered as `2 * i < maxLength`. -/
def chooseSplitIndex (remaining : List Char) (maxLength : Nat) : Nat :=
  match
    match lastIndexOfLe remaining '\n' maxLength with
    | none => lastIndexOfLe remaining ' ' maxLength
    | some i =>
      if 2 * i < maxLength then lastIndexOfLe remaining ' ' maxLength
      else some i
  with
  | none => maxLength
  | some i => if 2 * i < maxLength then maxLength else i

/-- The `while` loop of `splitMessage` (lines 815-834), with explicit
fuel; one unit per iteration suffices because every iteration consumes at
least one character once `1 ≤ maxLength` (proved below as fuel
independence). -/
def splitMessageGo (maxLength : Nat) : Nat → List Char → List (List Char)
  | 0, _ => []
  | fuel + 1, remaining =>
    if remaining.length = 0 then []
    else if remaining.length ≤ maxLength then [remaining]
    else
      remaining.take (chooseSplitIndex remaining maxLength) ::
        splitMessageGo maxLength fuel
          (jsTrim (remaining.drop (chooseSplitIndex remaining maxLength)))

/-- Embeds `splitMessage` (lines 809-837) on character lists. -/
def splitMessage (text : List Char) (maxLength : Nat) : List (List Char) :=
  if text.length ≤ maxLength then [text]
  else splitMessageGo maxLength text.length text

/-! ## Selection-State Paginator (part_000 lines 1204-1275) -/

/-- A rendered component of the models page: a model-selection button
(customId `model_<globalIdx>`) or a navigation button (customId
`models_page_<target>`).  Labels and button styles are presentation only
and are not modelled. -/
inductive Control (α : Type) : Type
  | candidate (globalIdx : Nat) (model : α)
  | prevPage (target : Nat)
  | nextPage (target : Nat)
deriving DecidableEq, Repr

/-- The row-chunking of the button loop (lines 1220-1240): rows of at most
5 buttons, in order.  Fuel-driven; `fuel = l.length` suffices. -/
def chunk5 {α : Type} : Nat → List α → List (List α)
  | 0, _ => []
  | _, [] => []
  | fuel + 1, x :: rest =>
    (x :: rest).take 5 :: chunk5 fuel ((x :: rest).drop 5)

/-- The output of one `models_page_` render: the component rows and the
`buttonMap` stored under the interaction id for later resolution. -/
structure PageRender (α : Type) : Type where
  rows : List (List (Control α))
  buttonMap : List (Nat × α)
deriving DecidableEq, Repr

/-- The `models_page_` branch of `handleButtonInteraction`
(lines 1205-1275): page size 20, the page slice
`models.slice(start, start + 20)` with `start = page * 20`, candidate
buttons indexed `start + j`, and a navigation row holding Previous when
`page > 0` and Next when `start + 20 < models.length`, appended only when
non-empty. -/
def renderModelsPage {α : Type} (models : List α) (page : Nat) :
    PageRender α :=
  let pageSize := 20
  let start := page * pageSize
  let pageModels := (models.drop start).take pageSize
  let candidateButtons :=
    pageModels.enum.map (fun p => Control.candidate (start + p.1) p.2)
  let navRow : List (Control α) :=
    (if 0 < page then [Control.prevPage (page - 1)] else []) ++
    (if start + pageSize < models.length then [Control.nextPage (page + 1)]
     else [])
  { rows :=
      chunk5 candidateButtons.length candidateButtons ++
        (if navRow.isEmpty then [] else [navRow])
    buttonMap := pageModels.enum.map (fun p => (start + p.1, p.2)) }

/-- The (index, model) pairs of all candidate controls on a page, in
render order. -/
def candidatePairs {α : Type} (pr : PageRender α) : List (Nat × α) :=
  pr.rows.flatten.filterMap (fun c =>
    match c with
    | Control.candidate i m => some (i, m)
    | _ => none)

/-- Whether any rendered control is a Next-page navigation button. -/
def hasNextControl {α : Type} (pr : PageRender α) : Bool :=
  pr.rows.flatten.any (fun c =>
    match c with
    | Control.nextPage _ => true
    | _ => false)

/-! ## Theorems -/

theorem mapGet_mapSet_self {α : Type} (m : List (String × α)) (k : String)
    (v : α) : mapGet (mapSet m k v) k = some v := by
  simp [mapGet, mapSet]

theorem mapGet_mapErase_self {α : Type} (m : List (String × α)) (k : String) :
    mapGet (mapErase m k) k = none := by
  induction m with
  | nil => rfl
  | cons p rest ih =>
    by_cases hp : p.1 = k
    · simp [mapErase, hp, ih]
    · simp [mapErase, hp, mapGet, ih]

theorem mapGet_mapErase_ne {α : Type} (m : List (String × α)) (k k' : String)
    (h : k' ≠ k) : mapGet (mapErase m k) k' = mapGet m k' := by
  induction m with
  | nil => rfl
  | cons p rest ih =>
    by_cases hp : p.1 = k
    · simp only [mapErase, if_pos hp, mapGet, ih]
      rw [if_neg]
      rw [hp]
      exact fun e => h e.symm
    · simp [mapErase, hp, mapGet, ih]

theorem mapGet_mapSet_ne {α : Type} (m : List (String × α)) (k k' : String)
    (v : α) (h : k' ≠ k) : mapGet (mapSet m k v) k' = mapGet m k' := by
  simp only [mapSet, mapGet, if_neg (fun e : k = k' => h e.symm)]
  exact mapGet_mapErase_ne m k k' h

theorem not_mem_setErase (s : List String) (k : String) :
    k ∉ setErase s k := by
  induction s with
  | nil => simp [setErase]
  | cons x rest ih =>
    by_cases hx : x = k
    · simpa [setErase, hx] using ih
    · simp [setErase, hx, ih]
      exact fun e => (hx e.symm).elim

theorem getLatestExchangeAux_no_assistant (l : List Message)
    (rest : List Message) (h : ∀ m ∈ l, m.role ≠ Role.assistant) :
    getLatestExchangeAux (l ++ rest) none = getLatestExchangeAux rest none := by
  induction l with
  | nil => rfl
  | cons m tl ih =>
    have hm : m.role ≠ Role.assistant := h m (List.mem_cons_self m tl)
    simp only [List.cons_append, getLatestExchangeAux, if_neg hm]
    exact ih (fun x hx => h x (List.mem_cons_of_mem m hx))

theorem getLatestExchangeAux_no_user (l : List Message)
    (rest : List Message) (a : Message) (h : ∀ m ∈ l, m.role ≠ Role.user) :
    getLatestExchangeAux (l ++ rest) (some a) =
      getLatestExchangeAux rest (some a) := by
  induction l with
  | nil => rfl
  | cons m tl ih =>
    have hm : m.role ≠ Role.user := h m (List.mem_cons_self m tl)
    simp only [List.cons_append, getLatestExchangeAux, if_neg hm]
    exact ih (fun x hx => h x (List.mem_cons_of_mem m hx))

theorem syncSessionBindMany_bound (sessionId t : String) (ts : List String) :
    ∀ s : SyncState, mapGet s.sessionToThread sessionId = some t →
      syncSessionBindMany s sessionId ts = s := by
  induction ts with
  | nil => intro s _; rfl
  | cons u us ih =>
    intro s hs
    simp only [syncSessionBindMany, syncSessionBind, hs]
    exact ih s hs

theorem handleSessionIdle_ledger (s : SyncState) (sessionId : String)
    (fetchResult : Option (List Message)) (createResult : Option String)
    (postOk : Bool) :
    ((handleSessionIdle s sessionId fetchResult createResult
          postOk).1.lastPostedContent = s.lastPostedContent ∧
      ∀ e ∈ (handleSessionIdle s sessionId fetchResult createResult postOk).2,
        e.isPost = false) ∨
    (∃ t u a,
      Effect.post t u a postOk ∈
        (handleSessionIdle s sessionId fetchResult createResult postOk).2 ∧
      (handleSessionIdle s sessionId fetchResult createResult
          postOk).1.lastPostedContent =
        mapSet s.lastPostedContent sessionId ⟨u, a⟩ ∧
      ∀ t' u' a' ok', Effect.post t' u' a' ok' ∈
          (handleSessionIdle s sessionId fetchResult createResult postOk).2 →
        t' = t ∧ u' = u ∧ a' = a) := by
  unfold handleSessionIdle
  dsimp only
  repeat' split
  all_goals first
    | exact Or.inl ⟨rfl, fun e he => absurd he (List.not_mem_nil e)⟩
    | (refine Or.inl ⟨rfl, ?_⟩
       intro e he
       simp only [List.mem_cons, List.not_mem_nil, or_false] at he
       first
         | (obtain rfl := he; rfl)
         | (rcases he with rfl | rfl
            · rfl
            · rfl))
    | (first
         | refine Or.inr ⟨_, _, _,
             List.mem_cons_of_mem _ (List.mem_singleton.mpr rfl), rfl, ?_⟩
         | refine Or.inr ⟨_, _, _,
             List.mem_cons_of_mem _
               (List.mem_cons_of_mem _ (List.mem_singleton.mpr rfl)), rfl, ?_⟩
       intro t' u' a' ok' hm
       simp only [List.mem_cons, List.not_mem_nil, or_false] at hm
       first
         | (rcases hm with h | h
            · exact absurd h (fun hh => Effect.noConfusion hh)
            · injection h with h1 h2 h3 h4
              exact ⟨h1, h2, h3⟩)
         | (rcases hm with h | h | h
            · exact absurd h (fun hh => Effect.noConfusion hh)
            · exact absurd h (fun hh => Effect.noConfusion hh)
            · injection h with h1 h2 h3 h4
              exact ⟨h1, h2, h3⟩))

/-- C3: for a message list ending `[user, assistant]`, `getLatestExchange`
returns exactly that pair; with no assistant-role message it returns
`null`; and when the last assistant message precedes all user messages it
returns `null`. -/
theorem c3_extractor_correctness (ms : List Message) :
    (∀ init u a, ms = init ++ [u, a] → u.role = Role.user →
      a.role = Role.assistant → getLatestExchange ms = some (u, a)) ∧
    ((∀ m ∈ ms, m.role ≠ Role.assistant) → getLatestExchange ms = none) ∧
    (∀ xs a ys, ms = xs ++ a :: ys → a.role = Role.assistant →
      (∀ m ∈ ys, m.role ≠ Role.assistant) →
      (∀ m ∈ xs, m.role ≠ Role.user) →
      getLatestExchange ms = none) := by
  refine ⟨?_, ?_, ?_⟩
  · intro init u a hms hu ha
    subst hms
    have hne : u.role ≠ Role.assistant := by rw [hu]; intro h; cases h
    simp [getLatestExchange, List.reverse_append, getLatestExchangeAux,
      ha, hu, hne]
  · intro h
    have h' : ∀ m ∈ ms.reverse, m.role ≠ Role.assistant := by
      intro m hm
      exact h m (List.mem_reverse.mp hm)
    have := getLatestExchangeAux_no_assistant ms.reverse [] h'
    simpa [getLatestExchange, getLatestExchangeAux] using this
  · intro xs a ys hms ha hys hxs
    subst hms
    have hrev : (xs ++ a :: ys).reverse =
        ys.reverse ++ ([a] ++ xs.reverse) := by
      simp
    rw [getLatestExchange, hrev]
    rw [getLatestExchangeAux_no_assistant ys.reverse ([a] ++ xs.reverse)
      (fun m hm => hys m (List.mem_reverse.mp hm))]
    have hna : a.role ≠ Role.user := by rw [ha]; intro h; cases h
    simp only [List.singleton_append, getLatestExchangeAux, if_pos ha]
    have hstep := getLatestExchangeAux_no_user xs.reverse [] a
      (fun m hm => hxs m (List.mem_reverse.mp hm))
    simpa [getLatestExchangeAux] using hstep

/-- Witness for C3: a concrete two-message `[user, assistant]` history. -/
theorem c3_extractor_correctness_witness :
    getLatestExchange
        [⟨Role.user, [Part.text "fix the bug"]⟩,
         ⟨Role.assistant, [Part.text "fixed it"]⟩] =
      some (⟨Role.user, [Part.text "fix the bug"]⟩,
            ⟨Role.assistant, [Part.text "fixed it"]⟩) :=
  (c3_extractor_correctness _).1 [] _ _ rfl rfl rfl

/-- C1: with a session unbound, the first guarded bind fixes
`getThread(sessionId)` for good — any later binds with other threadIds do
not change it — and a bind for an already-bound sessionId leaves the whole
state untouched. -/
theorem c1_registry_single_bind (s : SyncState) (sessionId : String) :
    (mapGet s.sessionToThread sessionId = none →
      ∀ t ts, mapGet (syncSessionBindMany s sessionId (t :: ts)).sessionToThread
          sessionId = some t) ∧
    (∀ t u, mapGet s.sessionToThread sessionId = some u →
      (syncSessionBind s sessionId t).1 = s) := by
  constructor
  · intro hnone t ts
    have h1 : (syncSessionBind s sessionId t).1 =
        createSyncThreadBind s sessionId t := by
      simp [syncSessionBind, hnone]
    have h2 : mapGet (createSyncThreadBind s sessionId t).sessionToThread
        sessionId = some t := mapGet_mapSet_self _ _ _
    simp only [syncSessionBindMany, h1]
    rw [syncSessionBindMany_bound sessionId t ts _ h2]
    exact h2
  · intro t u hsome
    simp [syncSessionBind, hsome]

/-- Witness for C1: a fresh state, bound to thread `t1`, then re-bound with
`t2` and `t3`; the registry still answers `t1`, and a repeat bind is a
no-op. -/
theorem c1_registry_single_bind_witness :
    mapGet (syncSessionBindMany ⟨[], [], [], [], []⟩ "ses_a"
        ["t1", "t2", "t3"]).sessionToThread "ses_a" = some "t1" ∧
    (syncSessionBind (createSyncThreadBind ⟨[], [], [], [], []⟩ "ses_a" "t1")
        "ses_a" "t9").1 =
      createSyncThreadBind ⟨[], [], [], [], []⟩ "ses_a" "t1" :=
  ⟨(c1_registry_single_bind ⟨[], [], [], [], []⟩ "ses_a").1 rfl "t1"
      ["t2", "t3"],
   (c1_registry_single_bind _ "ses_a").2 "t9" "t1" (by rfl)⟩

/-- C2 as written is false on the code: the session is bound to thread
`t1`, the exchange is novel, and the post FAILS (`postToSyncThread`
returns false), yet `handleSessionIdle` still overwrites the ledger entry
(the returned boolean is never consulted). -/
theorem c2_counterexample :
    (handleSessionIdle ⟨[("ses_a", "t1")], [("t1", "ses_a")], [], [], ["t1"]⟩
        "ses_a"
        (some [⟨Role.user, [Part.text "hi"]⟩,
               ⟨Role.assistant, [Part.text "yo"]⟩])
        none false).2 =
      [Effect.fetchMessages "ses_a", Effect.post "t1" "hi" "yo" false] ∧
    (handleSessionIdle ⟨[("ses_a", "t1")], [("t1", "ses_a")], [], [], ["t1"]⟩
        "ses_a"
        (some [⟨Role.user, [Part.text "hi"]⟩,
               ⟨Role.assistant, [Part.text "yo"]⟩])
        none false).1.lastPostedContent ≠
      (⟨[("ses_a", "t1")], [("t1", "ses_a")], [], [], ["t1"]⟩ :
        SyncState).lastPostedContent := by
  constructor <;> decide

/-- C2 (amended): the ledger entry is overwritten on every mirror attempt
that reaches the posting step, whether or not the post succeeds; attempts
that stop before posting leave the ledger unchanged. -/
theorem c2_ledger_update_on_post_attempt (s : SyncState) (sessionId : String)
    (fetchResult : Option (List Message)) (createResult : Option String)
    (postOk : Bool) :
    ((∀ e ∈ (handleSessionIdle s sessionId fetchResult createResult postOk).2,
        e.isPost = false) →
      (handleSessionIdle s sessionId fetchResult createResult
          postOk).1.lastPostedContent = s.lastPostedContent) ∧
    (∀ t u a ok, Effect.post t u a ok ∈
        (handleSessionIdle s sessionId fetchResult createResult postOk).2 →
      (handleSessionIdle s sessionId fetchResult createResult
          postOk).1.lastPostedContent =
        mapSet s.lastPostedContent sessionId ⟨u, a⟩) := by
  rcases handleSessionIdle_ledger s sessionId fetchResult createResult postOk
    with ⟨h1, h2⟩ | ⟨t, u, a, hmem, hled, huniq⟩
  · refine ⟨fun _ => h1, ?_⟩
    intro t' u' a' ok' hm
    have := h2 _ hm
    simp [Effect.isPost] at this
  · constructor
    · intro hnp
      have := hnp _ hmem
      simp [Effect.isPost] at this
    · intro t' u' a' ok' hm
      obtain ⟨-, hu, ha⟩ := huniq t' u' a' ok' hm
      rw [hled, hu, ha]

/-- Witness for C2 (amended): a concrete successful run overwrites the
ledger, and a run that stops at the dedup check leaves it unchanged. -/
theorem c2_ledger_update_on_post_attempt_witness :
    (handleSessionIdle ⟨[("ses_a", "t1")], [("t1", "ses_a")], [], [], ["t1"]⟩
        "ses_a"
        (some [⟨Role.user, [Part.text "hi"]⟩,
               ⟨Role.assistant, [Part.text "yo"]⟩])
        none true).1.lastPostedContent =
      mapSet ([] : List (String × LedgerEntry)) "ses_a" ⟨"hi", "yo"⟩ :=
  (c2_ledger_update_on_post_attempt
      ⟨[("ses_a", "t1")], [("t1", "ses_a")], [], [], ["t1"]⟩ "ses_a"
      (some [⟨Role.user, [Part.text "hi"]⟩,
             ⟨Role.assistant, [Part.text "yo"]⟩])
      none true).2 "t1" "hi" "yo" true (by decide)

/-- C4: an idle event for a chat-initiated (provenance-marked) session is
dropped before any I/O: no message fetch, no thread creation, no post, no
ledger update — the state is returned untouched with no effects. -/
theorem c4_echo_suppression (s : SyncState) (sessionId : String)
    (fetchResult : Option (List Message)) (createResult : Option String)
    (postOk : Bool) (h : sessionId ∈ s.discordInitiatedSessions) :
    handleSessionIdle s sessionId fetchResult createResult postOk = (s, []) := by
  unfold handleSessionIdle
  rw [if_pos h]

/-- Witness for C4: a chat-initiated session with novel, non-duplicate
content available is still skipped entirely. -/
theorem c4_echo_suppression_witness :
    handleSessionIdle ⟨[], [], [], ["ses_a"], []⟩ "ses_a"
        (some [⟨Role.user, [Part.text "new stuff"]⟩,
               ⟨Role.assistant, [Part.text "novel reply"]⟩])
        (some "t1") true =
      (⟨[], [], [], ["ses_a"], []⟩, []) :=
  c4_echo_suppression _ _ _ _ _ (List.mem_cons_self _ _)

/-- C5: handling `session.deleted` for a session S bound to thread T
removes the forward mapping, the ledger entry and the provenance
membership for S, while the reverse thread→session map is untouched and
still resolves T to S. -/
theorem c5_cleanup_on_deletion (s : SyncState) (S T : String)
    (_hfwd : mapGet s.sessionToThread S = some T)
    (hrev : mapGet s.threadToSession T = some S) :
    mapGet (processEvent s (Event.sessionDeleted (some S))).1.sessionToThread
        S = none ∧
    mapGet (processEvent s (Event.sessionDeleted (some S))).1.lastPostedContent
        S = none ∧
    S ∉ (processEvent s
        (Event.sessionDeleted (some S))).1.discordInitiatedSessions ∧
    mapGet (processEvent s (Event.sessionDeleted (some S))).1.threadToSession
        T = some S ∧
    (processEvent s (Event.sessionDeleted (some S))).1.threadToSession =
      s.threadToSession :=
  ⟨mapGet_mapErase_self _ _, mapGet_mapErase_self _ _, not_mem_setErase _ _,
   hrev, rfl⟩

/-- Witness for C5: a concrete bound session deleted from a populated
state. -/
theorem c5_cleanup_on_deletion_witness :
    mapGet (processEvent
        ⟨[("ses_a", "t1")], [("t1", "ses_a")], [("ses_a", ⟨"u", "a"⟩)],
         ["ses_a"], ["t1"]⟩
        (Event.sessionDeleted (some "ses_a"))).1.sessionToThread "ses_a" =
      none ∧
    mapGet (processEvent
        ⟨[("ses_a", "t1")], [("t1", "ses_a")], [("ses_a", ⟨"u", "a"⟩)],
         ["ses_a"], ["t1"]⟩
        (Event.sessionDeleted (some "ses_a"))).1.threadToSession "t1" =
      some "ses_a" :=
  ⟨(c5_cleanup_on_deletion _ "ses_a" "t1" (by decide) (by decide)).1,
   (c5_cleanup_on_deletion _ "ses_a" "t1" (by decide) (by decide)).2.2.2.1⟩

/-- C6: `shouldPost` is true before any `record` for the session, false
right after recording the same triple, and false exactly when a ledger
entry exists whose two fields are string-equal to the given texts. -/
theorem c6_dedup_idempotence (s : SyncState)
    (sessionId userText assistantText : String) :
    (mapGet s.lastPostedContent sessionId = none →
      shouldPost s sessionId userText assistantText = true) ∧
    shouldPost (record s sessionId userText assistantText) sessionId
        userText assistantText = false ∧
    (shouldPost s sessionId userText assistantText = false ↔
      ∃ e, mapGet s.lastPostedContent sessionId = some e ∧
        e.userContent = userText ∧ e.assistantContent = assistantText) := by
  refine ⟨?_, ?_, ?_⟩
  · intro h
    simp [shouldPost, h]
  · simp [shouldPost, record, mapGet_mapSet_self]
  · rcases hsome : mapGet s.lastPostedContent sessionId with _ | lp
    · simp [shouldPost, hsome]
    · simp [shouldPost, hsome]

/-- Witness for C6: fresh ledger, one record, identical triple. -/
theorem c6_dedup_idempotence_witness :
    shouldPost ⟨[], [], [], [], []⟩ "ses_a" "u" "a" = true ∧
    shouldPost (record ⟨[], [], [], [], []⟩ "ses_a" "u" "a") "ses_a" "u" "a"
      = false :=
  ⟨(c6_dedup_idempotence ⟨[], [], [], [], []⟩ "ses_a" "u" "a").1 rfl,
   (c6_dedup_idempotence ⟨[], [], [], [], []⟩ "ses_a" "u" "a").2.1⟩

/-- C7 as written is false on the code: when the event feed ends normally
(without throwing), the function simply returns — no reconnect is
scheduled, so not *every* termination re-invokes the subscription. -/
theorem c7_counterexample :
    (runSubscription ⟨[], [], [], [], []⟩ [] FeedTermination.ended).2.2 ≠
      RetryAction.retryAfter 10000 := by
  decide

/-- C7 (amended): only a throwing subscription/iteration schedules the
re-invocation after the fixed 10-second delay; a normally-ending feed
stops the consumer without retry. -/
theorem c7_reconnect_on_throw (s : SyncState) (events : List Event) :
    (runSubscription s events FeedTermination.threw).2.2 =
      RetryAction.retryAfter 10000 ∧
    (runSubscription s events FeedTermination.ended).2.2 =
      RetryAction.stop :=
  ⟨rfl, rfl⟩

theorem lastIndexOfLe_some (s : List Char) (c : Char) :
    ∀ pos i, lastIndexOfLe s c pos = some i → i ≤ pos ∧ s[i]? = some c := by
  intro pos
  induction pos with
  | zero =>
    intro i h
    rw [lastIndexOfLe] at h
    split at h
    next hc =>
      injection h with h'
      subst h'
      exact ⟨Nat.le_refl 0, hc⟩
    next => cases h
  | succ p ih =>
    intro i h
    rw [lastIndexOfLe] at h
    split at h
    next hc =>
      injection h with h'
      subst h'
      exact ⟨Nat.le_refl _, hc⟩
    next =>
      obtain ⟨h1, h2⟩ := ih i h
      exact ⟨Nat.le_succ_of_le h1, h2⟩

theorem lastIndexOfLe_none (s : List Char) (c : Char) :
    ∀ pos, lastIndexOfLe s c pos = none → ∀ j, j ≤ pos → s[j]? ≠ some c := by
  intro pos
  induction pos with
  | zero =>
    intro h j hj
    obtain rfl := Nat.le_zero.mp hj
    rw [lastIndexOfLe] at h
    split at h
    next => cases h
    next hc => exact hc
  | succ p ih =>
    intro h j hj
    rw [lastIndexOfLe] at h
    split at h
    next => cases h
    next hc =>
      rcases Nat.lt_or_ge j (p + 1) with hlt | hge
      · exact ih h j (Nat.lt_succ_iff.mp hlt)
      · obtain rfl := Nat.le_antisymm hj hge
        exact hc

theorem lastIndexOfLe_maximal (s : List Char) (c : Char) :
    ∀ pos i, lastIndexOfLe s c pos = some i →
      ∀ j, j ≤ pos → i < j → s[j]? ≠ some c := by
  intro pos
  induction pos with
  | zero =>
    intro i h j hj hij
    have := (lastIndexOfLe_some s c 0 i h).1
    omega
  | succ p ih =>
    intro i h j hj hij hcj
    rw [lastIndexOfLe] at h
    split at h
    next hc =>
      injection h with h'
      omega
    next hc =>
      rcases Nat.lt_or_ge j (p + 1) with hlt | hge
      · exact ih i h j (Nat.lt_succ_iff.mp hlt) hij hcj
      · obtain rfl := Nat.le_antisymm hj hge
        exact hc hcj

theorem lastIndexOfLe_eq_some (s : List Char) (c : Char) :
    ∀ pos i, i ≤ pos → s[i]? = some c →
      (∀ j, j ≤ pos → i < j → s[j]? ≠ some c) →
      lastIndexOfLe s c pos = some i := by
  intro pos
  induction pos with
  | zero =>
    intro i hi hc _
    obtain rfl := Nat.le_zero.mp hi
    rw [lastIndexOfLe, if_pos hc]
  | succ p ih =>
    intro i hi hc hmax
    rw [lastIndexOfLe]
    by_cases htop : s[p + 1]? = some c
    · obtain rfl : i = p + 1 := by
        by_contra hne
        exact hmax (p + 1) (Nat.le_refl _) (Nat.lt_of_le_of_ne hi hne) htop
      rw [if_pos htop]
    · rw [if_neg htop]
      have hi' : i ≤ p := by
        rcases Nat.lt_or_ge i (p + 1) with hlt | hge
        · exact Nat.lt_succ_iff.mp hlt
        · obtain rfl := Nat.le_antisymm hi hge
          exact absurd hc htop
      exact ih i hi' hc (fun j hj hij => hmax j (Nat.le_succ_of_le hj) hij)

theorem chooseSplitIndex_bounds (r : List Char) (m : Nat) :
    chooseSplitIndex r m ≤ m ∧ (1 ≤ m → 1 ≤ chooseSplitIndex r m) := by
  unfold chooseSplitIndex
  cases h1 : lastIndexOfLe r '\n' m with
  | none =>
    dsimp only
    cases h2 : lastIndexOfLe r ' ' m with
    | none => exact ⟨Nat.le_refl m, fun h => h⟩
    | some k =>
      have hk := (lastIndexOfLe_some r ' ' m k h2).1
      dsimp only
      by_cases hk2 : 2 * k < m
      · rw [if_pos hk2]
        exact ⟨Nat.le_refl m, fun h => h⟩
      · rw [if_neg hk2]
        exact ⟨hk, fun _ => by omega⟩
  | some i =>
    have hi := (lastIndexOfLe_some r '\n' m i h1).1
    dsimp only
    by_cases hi2 : 2 * i < m
    · rw [if_pos hi2]
      cases h2 : lastIndexOfLe r ' ' m with
      | none => exact ⟨Nat.le_refl m, fun h => h⟩
      | some k =>
        have hk := (lastIndexOfLe_some r ' ' m k h2).1
        dsimp only
        by_cases hk2 : 2 * k < m
        · rw [if_pos hk2]
          exact ⟨Nat.le_refl m, fun h => h⟩
        · rw [if_neg hk2]
          exact ⟨hk, fun _ => by omega⟩
    · rw [if_neg hi2]
      dsimp only
      rw [if_neg hi2]
      exact ⟨hi, fun _ => by omega⟩

theorem chooseSplitIndex_newline (r : List Char) (m i : Nat)
    (hc : r[i]? = some '\n') (hi : i ≤ m) (hhalf : m ≤ 2 * i)
    (hmax : ∀ j, j ≤ m → i < j → r[j]? ≠ some '\n') :
    chooseSplitIndex r m = i := by
  have h1 : lastIndexOfLe r '\n' m = some i :=
    lastIndexOfLe_eq_some r '\n' m i hi hc hmax
  have h2 : ¬ 2 * i < m := by omega
  unfold chooseSplitIndex
  rw [h1]
  dsimp only
  rw [if_neg h2]
  dsimp only
  rw [if_neg h2]

theorem chooseSplitIndex_space (r : List Char) (m k : Nat)
    (hnl : ∀ j, j ≤ m → r[j]? = some '\n' → 2 * j < m)
    (hc : r[k]? = some ' ') (hk : k ≤ m) (hhalf : m ≤ 2 * k)
    (hmax : ∀ j, j ≤ m → k < j → r[j]? ≠ some ' ') :
    chooseSplitIndex r m = k := by
  have h2 : lastIndexOfLe r ' ' m = some k :=
    lastIndexOfLe_eq_some r ' ' m k hk hc hmax
  have hknot : ¬ 2 * k < m := by omega
  unfold chooseSplitIndex
  cases h1 : lastIndexOfLe r '\n' m with
  | none =>
    dsimp only
    rw [h2]
    dsimp only
    rw [if_neg hknot]
  | some i =>
    obtain ⟨hile, hichar⟩ := lastIndexOfLe_some r '\n' m i h1
    dsimp only
    rw [if_pos (hnl i hile hichar), h2]
    dsimp only
    rw [if_neg hknot]

theorem chooseSplitIndex_fallback (r : List Char) (m : Nat)
    (hnl : ∀ j, j ≤ m → r[j]? = some '\n' → 2 * j < m)
    (hsp : ∀ j, j ≤ m → r[j]? = some ' ' → 2 * j < m) :
    chooseSplitIndex r m = m := by
  unfold chooseSplitIndex
  cases h1 : lastIndexOfLe r '\n' m with
  | none =>
    dsimp only
    cases h2 : lastIndexOfLe r ' ' m with
    | none => rfl
    | some k =>
      obtain ⟨hkle, hkchar⟩ := lastIndexOfLe_some r ' ' m k h2
      dsimp only
      rw [if_pos (hsp k hkle hkchar)]
  | some i =>
    obtain ⟨hile, hichar⟩ := lastIndexOfLe_some r '\n' m i h1
    dsimp only
    rw [if_pos (hnl i hile hichar)]
    cases h2 : lastIndexOfLe r ' ' m with
    | none => rfl
    | some k =>
      obtain ⟨hkle, hkchar⟩ := lastIndexOfLe_some r ' ' m k h2
      dsimp only
      rw [if_pos (hsp k hkle hkchar)]

theorem length_dropWhile_le (p : Char → Bool) (l : List Char) :
    (l.dropWhile p).length ≤ l.length := by
  induction l with
  | nil => exact Nat.le_refl 0
  | cons x xs ih =>
    by_cases hp : p x = true
    · rw [List.dropWhile_cons, if_pos hp]
      exact Nat.le_succ_of_le ih
    · rw [List.dropWhile_cons, if_neg hp]

theorem jsTrim_length_le (s : List Char) : (jsTrim s).length ≤ s.length := by
  have h1 : (s.dropWhile isJsSpace).length ≤ s.length :=
    length_dropWhile_le _ _
  have h2 : ((s.dropWhile isJsSpace).reverse.dropWhile isJsSpace).length ≤
      (s.dropWhile isJsSpace).reverse.length := length_dropWhile_le _ _
  simp only [jsTrim, List.length_reverse] at *
  omega

theorem splitMessageGo_seg_le (m : Nat) :
    ∀ fuel r, ∀ seg ∈ splitMessageGo m fuel r, seg.length ≤ m := by
  intro fuel
  induction fuel with
  | zero =>
    intro r seg h
    cases h
  | succ f ih =>
    intro r seg h
    rw [splitMessageGo] at h
    split at h
    · cases h
    · split at h
      next hle =>
        obtain rfl := List.mem_singleton.mp h
        exact hle
      next hgt =>
        rcases List.mem_cons.mp h with rfl | hmem
        · calc (r.take (chooseSplitIndex r m)).length
              ≤ chooseSplitIndex r m := by
                simp [List.length_take]
            _ ≤ m := (chooseSplitIndex_bounds r m).1
        · exact ih _ seg hmem

theorem splitMessageGo_seg_ne_nil (m : Nat) (hm : 1 ≤ m) :
    ∀ fuel r, ∀ seg ∈ splitMessageGo m fuel r, seg ≠ [] := by
  intro fuel
  induction fuel with
  | zero =>
    intro r seg h
    cases h
  | succ f ih =>
    intro r seg h
    rw [splitMessageGo] at h
    split at h
    · cases h
    · split at h
      next h0 hle =>
        obtain rfl := List.mem_singleton.mp h
        exact fun hnil => h0 (by rw [hnil]; rfl)
      next h0 hgt =>
        rcases List.mem_cons.mp h with rfl | hmem
        · have hsi := (chooseSplitIndex_bounds r m).2 hm
          intro hnil
          have h0len : (r.take (chooseSplitIndex r m)).length = 0 := by
            rw [hnil]
            rfl
          rw [List.length_take] at h0len
          rcases Nat.min_eq_zero_iff.mp h0len with hc | hc <;> omega
        · exact ih _ seg hmem

theorem splitMessageGo_fuel_stable (m : Nat) (hm : 1 ≤ m) :
    ∀ f g r, r.length ≤ f → r.length ≤ g →
      splitMessageGo m f r = splitMessageGo m g r := by
  intro f
  induction f with
  | zero =>
    intro g r hf _
    obtain rfl := List.length_eq_zero.mp (Nat.le_zero.mp hf)
    cases g with
    | zero => rfl
    | succ g' => rw [splitMessageGo, splitMessageGo]; rfl
  | succ f' ih =>
    intro g r hf hg
    by_cases h0 : r.length = 0
    · obtain rfl := List.length_eq_zero.mp h0
      cases g with
      | zero => rw [splitMessageGo, splitMessageGo]; rfl
      | succ g' => rw [splitMessageGo, splitMessageGo]; rfl
    · obtain ⟨g', rfl⟩ : ∃ g'', g = g'' + 1 := ⟨g - 1, by omega⟩
      rw [splitMessageGo, splitMessageGo]
      by_cases hle : r.length ≤ m
      · rw [if_neg h0, if_neg h0, if_pos hle, if_pos hle]
      · rw [if_neg h0, if_neg h0, if_neg hle, if_neg hle]
        have hsi := (chooseSplitIndex_bounds r m).2 hm
        have hsile := (chooseSplitIndex_bounds r m).1
        have htrim := jsTrim_length_le (r.drop (chooseSplitIndex r m))
        have hdrop : (r.drop (chooseSplitIndex r m)).length =
            r.length - chooseSplitIndex r m := List.length_drop _ _
        congr 1
        exact ih g' _ (by omega) (by omega)

theorem splitMessage_head (text : List Char) (m : Nat) (h : m < text.length) :
    (splitMessage text m).head? = some (text.take (chooseSplitIndex text m)) := by
  rw [splitMessage, if_neg (Nat.not_le.mpr h)]
  obtain ⟨c, cs, rfl⟩ : ∃ c cs, text = c :: cs := by
    cases text with
    | nil => simp at h
    | cons c cs => exact ⟨c, cs, rfl⟩
  simp only [List.length_cons]
  rw [splitMessageGo]
  rw [if_neg (by simp), if_neg (by simpa using Nat.not_le.mpr h)]
  rfl

/-- C8 as written is false on the code: this input contains a newline at
or before the limit (its latest such occurrence is index 1), yet because
that index is below `maxLength / 2` the splitter rejects it and hard-cuts
at the limit instead of at the newline. -/
theorem c8_counterexample :
    ['a', '\n', 'b', 'b', 'b', 'b', 'b', 'b'][1]? = some '\n' ∧
    (∀ j, j ≤ 4 → 1 < j →
      ['a', '\n', 'b', 'b', 'b', 'b', 'b', 'b'][j]? ≠ some '\n') ∧
    (splitMessage ['a', '\n', 'b', 'b', 'b', 'b', 'b', 'b'] 4).head? =
      some ['a', '\n', 'b', 'b'] ∧
    (splitMessage ['a', '\n', 'b', 'b', 'b', 'b', 'b', 'b'] 4).head? ≠
      some (['a', '\n', 'b', 'b', 'b', 'b', 'b', 'b'].take 1) := by
  refine ⟨?_, ?_, ?_, ?_⟩ <;> decide

/-- C8 (amended): for input longer than the limit, the first split point
is the latest newline at or before the limit *provided it is not below
half the limit*; otherwise the latest space at or before the limit under
the same half-limit rule; otherwise exactly the limit.  No emitted
segment exceeds the limit. -/
theorem c8_split_point_selection (text : List Char) (maxLength : Nat)
    (hlen : maxLength < text.length) :
    (∀ i, i ≤ maxLength → text[i]? = some '\n' → maxLength ≤ 2 * i →
      (∀ j, j ≤ maxLength → i < j → text[j]? ≠ some '\n') →
      (splitMessage text maxLength).head? = some (text.take i)) ∧
    ((∀ j, j ≤ maxLength → text[j]? = some '\n' → 2 * j < maxLength) →
      ∀ k, k ≤ maxLength → text[k]? = some ' ' → maxLength ≤ 2 * k →
      (∀ j, j ≤ maxLength → k < j → text[j]? ≠ some ' ') →
      (splitMessage text maxLength).head? = some (text.take k)) ∧
    ((∀ j, j ≤ maxLength → text[j]? = some '\n' → 2 * j < maxLength) →
      (∀ j, j ≤ maxLength → text[j]? = some ' ' → 2 * j < maxLength) →
      (splitMessage text maxLength).head? = some (text.take maxLength)) ∧
    (∀ seg ∈ splitMessage text maxLength, seg.length ≤ maxLength) := by
  refine ⟨?_, ?_, ?_, ?_⟩
  · intro i hi hc hhalf hmax
    rw [splitMessage_head text maxLength hlen,
      chooseSplitIndex_newline text maxLength i hc hi hhalf hmax]
  · intro hnl k hk hc hhalf hmax
    rw [splitMessage_head text maxLength hlen,
      chooseSplitIndex_space text maxLength k hnl hc hk hhalf hmax]
  · intro hnl hsp
    rw [splitMessage_head text maxLength hlen,
      chooseSplitIndex_fallback text maxLength hnl hsp]
  · intro seg hseg
    rw [splitMessage] at hseg
    split at hseg
    next hle =>
      obtain rfl := List.mem_singleton.mp hseg
      exact hle
    next => exact splitMessageGo_seg_le maxLength _ _ seg hseg

/-- Witness for C8 (amended): the newline at index 3 with limit 4 clears
the half-limit rule and is chosen as the first split point. -/
theorem c8_split_point_selection_witness :
    (splitMessage ['a', 'a', 'a', '\n', 'b', 'b', 'b', 'b', 'b'] 4).head? =
      some (['a', 'a', 'a', '\n', 'b', 'b', 'b', 'b', 'b'].take 3) :=
  (c8_split_point_selection ['a', 'a', 'a', '\n', 'b', 'b', 'b', 'b', 'b'] 4
      (by decide)).1 3 (by decide) (by decide) (by decide) (by decide)

/-- C10: with a non-empty input and a positive limit the splitter is
total — the fuelled loop is insensitive to any sufficient fuel — and it
yields a non-empty list of non-empty segments. -/
theorem c10_splitter_total (text : List Char) (maxLength : Nat)
    (htext : text ≠ []) (hm : 1 ≤ maxLength) :
    splitMessage text maxLength ≠ [] ∧
    (∀ seg ∈ splitMessage text maxLength, seg ≠ []) ∧
    (∀ fuel, text.length ≤ fuel →
      splitMessageGo maxLength fuel text =
        splitMessageGo maxLength text.length text) := by
  refine ⟨?_, ?_, ?_⟩
  · intro hempty
    rcases Nat.lt_or_ge maxLength text.length with hlt | hge
    · have := splitMessage_head text maxLength hlt
      rw [hempty] at this
      cases this
    · rw [splitMessage, if_pos hge] at hempty
      cases hempty
  · intro seg hseg
    rw [splitMessage] at hseg
    split at hseg
    · obtain rfl := List.mem_singleton.mp hseg
      exact htext
    · exact splitMessageGo_seg_ne_nil maxLength hm _ _ seg hseg
  · intro fuel hfuel
    exact splitMessageGo_fuel_stable maxLength hm fuel text.length text hfuel
      (Nat.le_refl _)

/-- Witness for C10: a three-character input with limit 1. -/
theorem c10_splitter_total_witness :
    splitMessage ['a', 'b', 'c'] 1 ≠ [] ∧
    (∀ seg ∈ splitMessage ['a', 'b', 'c'] 1, seg ≠ []) ∧
    splitMessageGo 1 7 ['a', 'b', 'c'] = splitMessageGo 1 3 ['a', 'b', 'c'] :=
  ⟨(c10_splitter_total ['a', 'b', 'c'] 1 (by decide) (by decide)).1,
   (c10_splitter_total ['a', 'b', 'c'] 1 (by decide) (by decide)).2.1,
   (c10_splitter_total ['a', 'b', 'c'] 1 (by decide) (by decide)).2.2 7
     (by decide)⟩

theorem chunk5_flatten {α : Type} :
    ∀ (fuel : Nat) (l : List α), l.length ≤ fuel →
      (chunk5 fuel l).flatten = l := by
  intro fuel
  induction fuel with
  | zero =>
    intro l hl
    obtain rfl := List.length_eq_zero.mp (Nat.le_zero.mp hl)
    rfl
  | succ f ih =>
    intro l hl
    cases l with
    | nil => rfl
    | cons x rest =>
      rw [chunk5, List.flatten_cons]
      rw [ih ((x :: rest).drop 5) (by
        rw [List.length_drop]
        simp only [List.length_cons] at hl ⊢
        omega)]
      exact List.take_append_drop 5 (x :: rest)

theorem filterMap_some_comp {β γ : Type} (f : β → γ) (l : List β) :
    l.filterMap (fun x => some (f x)) = l.map f := by
  induction l with
  | nil => rfl
  | cons x xs ih => simp [List.filterMap_cons, ih]

theorem any_map_false {β γ : Type} (f : β → γ) (p : γ → Bool) (l : List β)
    (h : ∀ x, p (f x) = false) : (l.map f).any p = false := by
  induction l with
  | nil => rfl
  | cons x xs ih => simp [ih, h]

/-- C9: for 47 candidates with page size 20 and 5 buttons per row,
rendering page 2 emits exactly the 7 candidates at global indices 40-46,
each control's index being pageIndex * 20 + localOffset, and emits no
Next-page control. -/
theorem c9_pagination_page2 {α : Type} (models : List α)
    (h47 : models.length = 47) :
    candidatePairs (renderModelsPage models 2) =
      (models.drop 40).enum.map (fun p => (40 + p.1, p.2)) ∧
    (models.drop 40).length = 7 ∧
    hasNextControl (renderModelsPage models 2) = false := by
  have hdrop : (models.drop 40).length = 7 := by
    rw [List.length_drop, h47]
  have htake : (models.drop (2 * 20)).take 20 = models.drop 40 := by
    rw [show (2 * 20 : Nat) = 40 from rfl]
    exact List.take_of_length_le (by omega)
  have hnonav : ¬ (2 * 20 + 20 < models.length) := by omega
  refine ⟨?_, hdrop, ?_⟩
  · unfold renderModelsPage candidatePairs
    dsimp only
    rw [if_neg hnonav, if_pos (by norm_num : (0:Nat) < 2)]
    rw [htake]
    simp only [show (2 * 20 : Nat) = 40 from rfl, List.append_nil,
      List.isEmpty_cons, Bool.false_eq_true, if_false]
    rw [List.flatten_append, chunk5_flatten _ _ (Nat.le_refl _),
      List.filterMap_append, List.filterMap_map]
    simp only [List.flatten_cons, List.flatten_nil, List.append_nil]
    rw [show ((fun (c : Control α) =>
        match c with
        | Control.candidate i m => some (i, m)
        | _ => none) ∘ (fun p : Nat × α => Control.candidate (40 + p.1) p.2)) =
      (fun p : Nat × α => some ((40 + p.1, p.2))) from rfl]
    rw [filterMap_some_comp]
    simp [List.filterMap_cons]
  · unfold renderModelsPage hasNextControl
    dsimp only
    rw [if_neg hnonav, if_pos (by norm_num : (0:Nat) < 2)]
    simp only [List.append_nil, List.isEmpty_cons, Bool.false_eq_true,
      if_false]
    rw [List.flatten_append, chunk5_flatten _ _ (Nat.le_refl _),
      List.any_append]
    rw [any_map_false _ _ _ (fun x => rfl)]
    rfl

/-- Witness for C9: the concrete candidate list `0, …, 46`. -/
theorem c9_pagination_page2_witness :
    candidatePairs (renderModelsPage (List.range 47) 2) =
      ((List.range 47).drop 40).enum.map (fun p => (40 + p.1, p.2)) ∧
    ((List.range 47).drop 40).length = 7 ∧
    hasNextControl (renderModelsPage (List.range 47) 2) = false :=
  c9_pagination_page2 (List.range 47) (by decide)

end OpenDiscord
